import Mathlib

/-!
Verification of the predictive preloading library (`predictive_library`).

The development shallowly embeds the TypeScript sources:
  - `src/predictionModel.ts` (and its extended duplicate carrying the remote-sync
    code): `updateTransitionMatrix`, `getSequenceProbabilities`,
    `getTimeProbabilities`, `getMostFrequentAction`, `predictNextAction`,
    `encryptDeterministic`;
  - `src/databaseManager.ts`: `saveInteraction` / `notifyInteractionSaved`;
  - `src/componentPreloader.ts`: `preloadComponent`.

JavaScript `Map` objects are modelled as association lists that keep the
insertion order: `set` on a present key updates the value in place, `set` on an
absent key appends at the tail, and iteration follows the list order, exactly
as the ECMAScript specification prescribes for `Map`.
-/

namespace PredictiveLibrary

/-- JS `Map.prototype.get`: the value stored at the first (and, under the `Map`
invariant, only) occurrence of the key. -/
def aget {σ β : Type} [DecidableEq σ] : List (σ × β) → σ → Option β
  | [], _ => none
  | e :: m, k => if e.1 = k then some e.2 else aget m k

/-- JS `Map.prototype.get` with a default, modelling `map.get(k) || d`. -/
def agetD {σ β : Type} [DecidableEq σ] (m : List (σ × β)) (k : σ) (d : β) : β :=
  (aget m k).getD d

/-- JS `Map.prototype.set`: update the value in place when the key is present,
append a fresh entry at the tail otherwise. -/
def aset {σ β : Type} [DecidableEq σ] : List (σ × β) → σ → β → List (σ × β)
  | [], k, v => [(k, v)]
  | e :: m, k, v => if e.1 = k then (k, v) :: m else e :: aset m k v

theorem aget_aset_self {σ β : Type} [DecidableEq σ] (m : List (σ × β)) (k : σ) (v : β) :
    aget (aset m k v) k = some v := by
  induction m with
  | nil => simp [aget, aset]
  | cons e m ih =>
    by_cases h : e.1 = k
    · simp [aset, h, aget]
    · simp [aset, h, aget, ih]

theorem aget_aset_ne {σ β : Type} [DecidableEq σ] (m : List (σ × β)) (k k' : σ) (v : β)
    (h : k ≠ k') : aget (aset m k v) k' = aget m k' := by
  induction m with
  | nil => simp [aget, aset, h]
  | cons e m ih =>
    by_cases he : e.1 = k
    · simp [aset, he, aget, h]
    · simp only [aset, if_neg he, aget, ih]

theorem agetD_aset_self {σ β : Type} [DecidableEq σ] (m : List (σ × β)) (k : σ) (v d : β) :
    agetD (aset m k v) k d = v := by
  simp [agetD, aget_aset_self]

theorem agetD_aset_ne {σ β : Type} [DecidableEq σ] (m : List (σ × β)) (k k' : σ) (v d : β)
    (h : k ≠ k') : agetD (aset m k v) k' d = agetD m k' d := by
  simp [agetD, aget_aset_ne m k k' v h]

theorem aset_ne_nil {σ β : Type} [DecidableEq σ] (m : List (σ × β)) (k : σ) (v : β) :
    aset m k v ≠ [] := by
  cases m with
  | nil => simp [aset]
  | cons e m => by_cases h : e.1 = k <;> simp [aset, h]

/-- Values appearing in `aset m k v` are either `v` or values already in `m`. -/
theorem mem_aset {σ β : Type} [DecidableEq σ] (m : List (σ × β)) (k : σ) (v : β)
    (e : σ × β) (he : e ∈ aset m k v) : e.2 = v ∨ e ∈ m := by
  induction m with
  | nil => simp [aset] at he; simp [he]
  | cons x m ih =>
    by_cases h : x.1 = k
    · simp only [aset, if_pos h, List.mem_cons] at he
      rcases he with he | he
      · left; simp [he]
      · right; exact List.mem_cons_of_mem _ he
    · simp only [aset, if_neg h, List.mem_cons] at he
      rcases he with he | he
      · right; simp [he]
      · rcases ih he with h1 | h1
        · left; exact h1
        · right; exact List.mem_cons_of_mem _ h1

/-- `InteractionData` from `predictionModel.ts` (the optional `deviceType`,
`sessionId` and `region` fields are never read by the model and are omitted).
Timestamps are milliseconds since the epoch. -/
structure InteractionData where
  componentId : String
  actionType : String
  timestamp : Nat
  deriving DecidableEq, Repr, Inhabited

/-- `InteractionRecord` from `databaseManager.ts`. -/
structure InteractionRecord where
  componentId : String
  actionType : String
  timestamp : Nat
  deriving DecidableEq, Repr, Inhabited

/-- The mutable fields of `PredictionModel` that the update and query paths
read and write: `userHistory`, `transitionMatrix`, `globalActionCounter` and
`timePatterns`, with JS `Map`s rendered as insertion-ordered association
lists. -/
structure ModelState where
  userHistory : List InteractionData
  transitionMatrix : List (Nat × List (String × List (String × Nat)))
  globalActionCounter : List (String × Nat)
  timePatterns : List (String × List (Nat × Nat))
  deriving DecidableEq, Repr

/-- The constructor initialises every container empty. -/
def emptyModelState : ModelState :=
  { userHistory := []
    transitionMatrix := []
    globalActionCounter := []
    timePatterns := [] }

/-- The configuration parameters of `PredictionModel`.  `expDecay` models the
map `deltaT ↦ Math.exp (-decayLambda * deltaT)` computed by
`applyAdaptiveDecay`: the exponential is transcendental, so the embedding keeps
it as a function `ℤ → ℚ` and the theorems that rely on algebraic facts about
the real exponential (strict positivity, `exp (a + b) = exp a * exp b`) take
those facts as explicit hypotheses. -/
structure Params where
  historyLength : Nat
  decayLambda : ℚ
  smoothingFactor : ℚ
  weightSequence : ℚ
  weightTime : ℚ
  maxPatternLength : Nat
  expDecay : ℤ → ℚ

/-- Constructor defaults of the extended `PredictionModel` module (the variant
carrying the remote-sync code): `historyLength = 100`, `decayLambda = 0.0005`,
`smoothingFactor = 0.1`, `weightSequence = 0.7`, `weightTime = 0.3`,
`maxPatternLength = 5`. -/
def defaultParams (expDecay : ℤ → ℚ) : Params :=
  { historyLength := 100
    decayLambda := 5 / 10000
    smoothingFactor := 1 / 10
    weightSequence := 7 / 10
    weightTime := 3 / 10
    maxPatternLength := 5
    expDecay := expDecay }

/-- Constructor defaults of `src/predictionModel.ts` (the module imported by
the build entry `src/index.ts`): identical to `defaultParams` except that
`smoothingFactor = 1` there. -/
def srcDefaultParams (expDecay : ℤ → ℚ) : Params :=
  { historyLength := 100
    decayLambda := 5 / 10000
    smoothingFactor := 1
    weightSequence := 7 / 10
    weightTime := 3 / 10
    maxPatternLength := 5
    expDecay := expDecay }

/-- `new Date(timestamp).getHours()` for a millisecond timestamp, with the
timezone offset fixed at zero (UTC). -/
def hourOf (timestamp : Nat) : Nat :=
  timestamp / 3600000 % 24

/-- JS `array.slice(-n)`: the last `n` elements (the whole array when
`n ≥ length`). -/
def jsSliceLast {α : Type} (l : List α) (n : Nat) : List α :=
  l.drop (l.length - n)

/-- `history.slice(-length).map(h => h.actionType).join(',')`. -/
def patternOf (history : List InteractionData) (length : Nat) : String :=
  String.intercalate "," ((jsSliceLast history length).map (·.actionType))

/-- `updateTransitionMatrix(interaction, timestamp)` from `predictionModel.ts`:
increment `timePatterns[action][hour]`, increment `globalActionCounter[action]`,
then for `length = 1 .. min(maxPatternLength, history.length)` increment
`transitionMatrix[length][pattern][action]` where `pattern` is the comma-join
of the last `length` action types of the history before the append, and
finally set `userHistory = [...history.slice(-historyLength), newItem]`. -/
def updateTransitionMatrix (p : Params) (st : ModelState) (interaction : InteractionRecord)
    (timestamp : Nat) : ModelState :=
  let action := interaction.actionType
  let hour := hourOf timestamp
  let timeData := agetD st.timePatterns action []
  let timePatterns := aset st.timePatterns action (aset timeData hour (agetD timeData hour 0 + 1))
  let globalActionCounter :=
    aset st.globalActionCounter action (agetD st.globalActionCounter action 0 + 1)
  let history := st.userHistory
  let maxLen := min p.maxPatternLength history.length
  let transitionMatrix :=
    (List.range' 1 maxLen).foldl
      (fun tm length =>
        let pattern := patternOf history length
        let level := agetD tm length []
        let transitions := agetD level pattern []
        aset tm length (aset level pattern (aset transitions action (agetD transitions action 0 + 1))))
      st.transitionMatrix
  { userHistory := jsSliceLast history p.historyLength ++
      [{ componentId := interaction.componentId, actionType := action, timestamp := timestamp }]
    transitionMatrix := transitionMatrix
    globalActionCounter := globalActionCounter
    timePatterns := timePatterns }

/-- A sequence of saves driven through the `onInteractionSaved` bus (or the
startup replay `processHistoricalData`): each record is pushed through
`updateTransitionMatrix(interaction, interaction.timestamp)` in order. -/
def saveAll (p : Params) (st : ModelState) (records : List InteractionRecord) : ModelState :=
  records.foldl (fun s r => updateTransitionMatrix p s r r.timestamp) st

/-- Total number of interactions recorded in the global action counter. -/
def counterSum (counter : List (String × Nat)) : Nat :=
  (counter.map (·.2)).sum

/-- Sum of the counts of a transition-matrix row:
`Array.from(possibleActions.values()).reduce((sum, c) => sum + c, 0)`. -/
def rowTotal (row : List (String × Nat)) : Nat :=
  (row.map (·.2)).sum

/-- Laplace smoothing of one count against its row:
`(count + smoothingFactor) / (total + smoothingFactor * possibleActions.size)`. -/
def smoothedProb (p : Params) (row : List (String × Nat)) (count : Nat) : ℚ :=
  ((count : ℚ) + p.smoothingFactor) /
    ((rowTotal row : ℚ) + p.smoothingFactor * (row.length : ℚ))

/-- `this.transitionMatrix.get(length)?.get(pattern)`. -/
def jsGet2 (tm : List (Nat × List (String × List (String × Nat)))) (length : Nat)
    (pattern : String) : Option (List (String × Nat)) :=
  (aget tm length).bind (fun level => aget level pattern)

/-- `history[history.length - length].timestamp` (the timestamp of the first
element of the matched window). -/
def windowTimestamp (history : List InteractionData) (length : Nat) : Nat :=
  (history.getD (history.length - length) default).timestamp

/-- The weighted contributions produced by the double loop of
`getSequenceProbabilities`, in iteration order: for every
`length = 1 .. min(maxPatternLength, history.length)` whose matrix row exists,
every `(action, count)` entry of the row yields
`smoothedProb * applyAdaptiveDecay(now - history[history.length - length].timestamp)`.
`now` is the value of `Date.now()` read at the top of the function. -/
def seqContribs (p : Params) (st : ModelState) (now : Nat) : List (String × ℚ) :=
  (List.range' 1 (min p.maxPatternLength st.userHistory.length)).flatMap
    (fun length =>
      match jsGet2 st.transitionMatrix length (patternOf st.userHistory length) with
      | none => []
      | some row =>
          row.map (fun e =>
            (e.1, smoothedProb p row e.2 *
              p.expDecay ((now : ℤ) - (windowTimestamp st.userHistory length : ℤ)))))

/-- `seqProbs.set(action, (seqProbs.get(action) || 0) + weighted)` folded over a
contribution list, starting from the given map. -/
def accumAux (m : List (String × ℚ)) (l : List (String × ℚ)) : List (String × ℚ) :=
  l.foldl (fun acc e => aset acc e.1 (agetD acc e.1 0 + e.2)) m

/-- The `seqProbs` map accumulated from an empty `Map`. -/
def accumContribs (l : List (String × ℚ)) : List (String × ℚ) :=
  accumAux [] l

/-- Sum of the values of a probability map. -/
def sumVals (m : List (String × ℚ)) : ℚ :=
  (m.map (·.2)).sum

/-- `getSequenceProbabilities()` from `predictionModel.ts`: accumulate the
weighted contributions, then normalise in place when the total weight is
positive.  `now` models the `Date.now()` call at the top of the function. -/
def getSequenceProbabilities (p : Params) (st : ModelState) (now : Nat) :
    List (String × ℚ) :=
  let seqProbs := accumContribs (seqContribs p st now)
  let totalWeight := sumVals seqProbs
  if 0 < totalWeight then seqProbs.map (fun e => (e.1, e.2 / totalWeight)) else seqProbs

/-- The `totalPerHour` accumulation of `getTimeProbabilities`: for every
action's time data, add each `(hour, count)` entry into the per-hour totals. -/
def hourTotals (timePatterns : List (String × List (Nat × Nat))) : List (Nat × Nat) :=
  timePatterns.foldl
    (fun acc e => e.2.foldl (fun acc2 he => aset acc2 he.1 (agetD acc2 he.1 0 + he.2)) acc)
    []

/-- `getTimeProbabilities(timestamp)` from `predictionModel.ts`. -/
def getTimeProbabilities (st : ModelState) (timestamp : Nat) : List (String × ℚ) :=
  let hour := hourOf timestamp
  let total := agetD (hourTotals st.timePatterns) hour 0
  if 0 < total then
    st.timePatterns.map (fun e => (e.1, ((agetD e.2 hour 0 : ℕ) : ℚ) / (total : ℚ)))
  else []

/-- `getMostFrequentAction()`:
`Array.from(counter.entries()).reduce((a, b) => a[1] > b[1] ? a : b)[0]`,
`null` when the counter is empty.  `reduce` without an initial value starts
from the first entry. -/
def getMostFrequentAction (counter : List (String × Nat)) : Option String :=
  match counter with
  | [] => none
  | x :: rest => some ((rest.foldl (fun a b => if a.2 > b.2 then a else b) x).1)

/-- Insertion step of a stable descending sort keyed by `f`: the element being
inserted was later in the original array than every element of the sorted
list, so it is placed before `y` exactly when `f y ≤ f x` fails to hold
strictly the other way, i.e. when `f y ≤ f x`. -/
def insertDesc {α : Type} (f : α → ℚ) (x : α) : List α → List α
  | [] => [x]
  | y :: ys => if f y ≤ f x then x :: y :: ys else y :: insertDesc f x ys

/-- JS `Array.prototype.sort` with comparator `(a, b) => f b - f a`: a stable
sort into non-increasing key order (ECMAScript sorts are stable). -/
def stableSortDesc {α : Type} (f : α → ℚ) : List α → List α
  | [] => []
  | x :: xs => insertDesc f x (stableSortDesc f xs)

/-- `new Set([...seqKeys, ...timeKeys])` iterated in insertion order: keep the
first occurrence of each element. -/
def jsSetDedup : List String → List String
  | [] => []
  | k :: ks => k :: (jsSetDedup ks).filter (fun x => ¬x = k)

/-- The `combined` score map built by `predictNextAction`: for every action of
`new Set([...seqProbs.keys(), ...timeProbs.keys()])`,
`weightSequence * (seqProbs.get(a) || 0) + weightTime * (timeProbs.get(a) || 0)`. -/
def combinedScores (p : Params) (st : ModelState) (timestamp now : Nat) :
    List (String × ℚ) :=
  let seqProbs := getSequenceProbabilities p st now
  let timeProbs := getTimeProbabilities st timestamp
  let allActions := jsSetDedup (seqProbs.map (·.1) ++ timeProbs.map (·.1))
  allActions.map (fun a =>
    (a, p.weightSequence * agetD seqProbs a 0 + p.weightTime * agetD timeProbs a 0))

/-- `predictNextAction(timestamp)` of the extended `PredictionModel` module:
return `{null, null}` when both the history and the global counter are empty;
otherwise combine the sequence and time distributions, sort the combined
entries by score (stable, descending), filter the candidates within `1e-6` of
the top score, and break ties.  The source tiebreak comparator
`computeEntropy(seqProbs) - computeEntropy(seqProbs)` subtracts a finite number
from itself and is therefore the constant `0`; the embedding keeps the shape
`F(seqProbs) - F(seqProbs)` with `sumVals` standing in for the transcendental
`computeEntropy` (only the shape matters: any `x - x` is `0`, so the sort key
is constant and the stable sort is the identity).  `tracker` is the
`ComponentTracker.actionComponentMap` used by `getComponentByAction`; `now`
models the `Date.now()` read inside `getSequenceProbabilities`. -/
def predictNextAction (p : Params) (tracker : List (String × String)) (st : ModelState)
    (timestamp now : Nat) : Option String × Option String :=
  if st.userHistory = [] ∧ st.globalActionCounter = [] then (none, none)
  else
    let seqProbs := getSequenceProbabilities p st now
    let combined := combinedScores p st timestamp now
    if combined ≠ [] then
      let sorted := stableSortDesc (·.2) combined
      let maxValue := sorted.headI.2
      let topCandidates := sorted.filter (fun e => |e.2 - maxValue| < 1 / 1000000)
      let bestAction :=
        if topCandidates.length = 1 then topCandidates.headI.1
        else ((stableSortDesc (fun _ => sumVals seqProbs - sumVals seqProbs) topCandidates).headI).1
      (some bestAction, aget tracker bestAction)
    else
      match getMostFrequentAction st.globalActionCounter with
      | some a => (some a, aget tracker a)
      | none => (none, none)

/-- A `(ciphertext, iv)` pair as produced by `encrypt`. -/
structure EncPair where
  ciphertext : String
  iv : String
  deriving DecidableEq, Repr

/-- The row written by `saveInteraction`: per-field ciphertexts and IVs plus
the plaintext timestamp. -/
structure EncryptedInteraction where
  actionType : String
  actionTypeIV : String
  componentId : String
  componentIdIV : String
  timestamp : Nat
  deriving DecidableEq, Repr

/-- The three ways the IndexedDB portion of `saveInteraction` can resolve: the
`indexedDB.open` request errors, the readwrite transaction errors, or the
transaction completes (commits). -/
inductive SaveOutcome where
  | openError
  | txError
  | txComplete
  deriving DecidableEq, Repr

/-- `DatabaseManager.saveInteraction(interaction)`: encrypt both fields (the
fresh random-IV encryptions are the `encA`/`encC` inputs), build the encrypted
row, then run the transaction.  On `oncomplete` the row is stored,
`notifyInteractionSaved(interaction)` fans the original plaintext record out to
every subscriber in registration order, and the promise resolves; on
`transaction.onerror` or `request.onerror` nothing is stored, nobody is
notified, and the promise rejects with the corresponding message.  The result
is `(stored row, callback results in order, promise outcome)`; `callbacks`
models the `interactionSavedCallbacks` array, each callback being an arbitrary
function of the record it receives. -/
def saveInteraction {β : Type} (encA encC : EncPair)
    (callbacks : List (InteractionRecord → β)) (outcome : SaveOutcome)
    (interaction : InteractionRecord) :
    Option EncryptedInteraction × List β × Except String Unit :=
  let encryptedInteraction : EncryptedInteraction :=
    { actionType := encA.ciphertext
      actionTypeIV := encA.iv
      componentId := encC.ciphertext
      componentIdIV := encC.iv
      timestamp := interaction.timestamp }
  match outcome with
  | .txComplete =>
      (some encryptedInteraction, callbacks.map (fun cb => cb interaction), .ok ())
  | .txError => (none, [], .error "Error saving interaction")
  | .openError => (none, [], .error "Error opening IndexedDB")

/-- `ComponentData` from `componentTracker.ts`. -/
structure ComponentData where
  id : String
  type : String
  deriving DecidableEq, Repr

/-- `ComponentPreloader.preloadComponent(componentId)` over an explicit
instance cache, additionally reporting whether a cache insertion happened: if
the id is already in `componentCache`, return unchanged (`false`); otherwise
look the component up among the tracked components and insert it into the
cache when found. -/
def preloadComponent (tracked : List ComponentData) (componentCache : List (String × ComponentData))
    (componentId : String) : List (String × ComponentData) × Bool :=
  if (aget componentCache componentId).isSome then (componentCache, false)
  else
    match tracked.find? (fun c => c.id = componentId) with
    | some componentData => (aset componentCache componentId componentData, true)
    | none => (componentCache, false)

/-- The preload step of `PredictionModel.updateModel`: the source runs
`new ComponentPreloader().preloadComponent(nextAction.componentId)`, so the
constructor re-creates `componentCache = new Map()` and the call always starts
from an empty cache. -/
def updateModelPreload (tracked : List ComponentData) (componentId : String) :
    List (String × ComponentData) × Bool :=
  preloadComponent tracked [] componentId

/-- Number of cache insertions over a session in which each saved interaction
triggers `updateModel`, which preloads the predicted component through a
freshly constructed `ComponentPreloader`. -/
def sessionPreloadInserts (tracked : List ComponentData) (componentIds : List String) : Nat :=
  (componentIds.map (fun cid => (updateModelPreload tracked cid).2)).count true

/-- `encryptDeterministic(data)` from the extended `PredictionModel` module:
reuse the IV stored in `ivMap` when present, otherwise store (and persist via
`saveIvMap`) the freshly generated random IV `freshIv`; then AES-GCM-encrypt
`data` under that IV.  `aesEnc iv data` models `crypto.subtle.encrypt` with the
fixed build-time key, which is a deterministic function of the IV and the
plaintext.  The result is `(ciphertext, iv, updated ivMap)`. -/
def encryptDeterministic (aesEnc : String → String → String) (freshIv : String)
    (ivMap : List (String × String)) (data : String) :
    String × String × List (String × String) :=
  match aget ivMap data with
  | some ivBase64 => (aesEnc ivBase64 data, ivBase64, ivMap)
  | none => (aesEnc freshIv data, freshIv, aset ivMap data freshIv)

/-- The in-memory `ivMap` a freshly constructed `PredictionModel` starts from:
the field initialiser is `new Map()`, and `loadIvMap` — the only code that
would repopulate it from `localStorage` — is never invoked anywhere in the
module. -/
def sessionStartIvMap : List (String × String) := []

/-- C1: the claim asserts that after `k` saves the user history length equals
`min(k, historyLength)` and never exceeds `historyLength`.  The code keeps
`[...history.slice(-historyLength), item]`, i.e. the last `historyLength`
entries PLUS the new one, so with `historyLength = 2` three saves leave a
history of length `3 > 2` (with the default `100`, the 101st save leaves
`101`).  The global counter sum does equal the number of saves. -/
theorem userHistory_exceeds_historyLength :
    (saveAll { defaultParams (fun _ => 1) with historyLength := 2 } emptyModelState
        [⟨"c", "A", 1⟩, ⟨"c", "A", 2⟩, ⟨"c", "A", 3⟩]).userHistory.length = 3 ∧
    counterSum (saveAll { defaultParams (fun _ => 1) with historyLength := 2 } emptyModelState
        [⟨"c", "A", 1⟩, ⟨"c", "A", 2⟩, ⟨"c", "A", 3⟩]).globalActionCounter = 3 ∧
    ¬(3 ≤ 2) := by
  refine ⟨by decide, by decide, by decide⟩

/-- C7: `saveInteraction` publishes the original plaintext record to every
subscriber (in registration order) exactly in the `transaction.oncomplete`
branch, after which the promise resolves; in the `transaction.onerror` and
`request.onerror` branches no subscriber is notified and the promise rejects
with the corresponding error message. -/
theorem saveInteraction_notifies_only_after_commit {β : Type} (encA encC : EncPair)
    (callbacks : List (InteractionRecord → β)) (interaction : InteractionRecord) :
    (saveInteraction encA encC callbacks .txComplete interaction).2.1 =
        callbacks.map (fun cb => cb interaction) ∧
    (saveInteraction encA encC callbacks .txComplete interaction).2.2 = .ok () ∧
    (saveInteraction encA encC callbacks .txError interaction).2.1 = [] ∧
    (saveInteraction encA encC callbacks .txError interaction).2.2 =
        .error "Error saving interaction" ∧
    (saveInteraction encA encC callbacks .openError interaction).2.1 = [] ∧
    (saveInteraction encA encC callbacks .openError interaction).2.2 =
        .error "Error opening IndexedDB" :=
  ⟨rfl, rfl, rfl, rfl, rfl, rfl⟩

/-- C8 counterexample: the claim asserts at most one cache insertion per
componentId per session.  `updateModel` runs
`new ComponentPreloader().preloadComponent(id)`, whose constructor re-creates
`componentCache = new Map()`, so each of two consecutive update events for the
same tracked component inserts into a fresh empty cache: two insertions, not
at most one. -/
theorem preload_session_idempotence_fails :
    sessionPreloadInserts [⟨"c1", "page"⟩] ["c1", "c1"] = 2 ∧ ¬(2 ≤ 1) := by
  refine ⟨by decide, by decide⟩

/-- C8 amended: preloading is idempotent per `ComponentPreloader` instance —
whatever the first call did, a repeated call on the same instance finds the
cache already settled and performs no insertion, leaving the cache unchanged.
Session-level idempotence fails because `updateModel` constructs a fresh
instance per event (see the counterexample). -/
theorem preload_instance_idempotent (tracked : List ComponentData)
    (componentCache : List (String × ComponentData)) (componentId : String) :
    preloadComponent tracked (preloadComponent tracked componentCache componentId).1 componentId =
      ((preloadComponent tracked componentCache componentId).1, false) := by
  unfold preloadComponent
  by_cases h : (aget componentCache componentId).isSome
  · simp [h]
  · simp only [h, if_neg, Bool.false_eq_true, if_false]
    cases hf : tracked.find? (fun c => c.id = componentId) with
    | none => simp [h, hf]
    | some cd => simp [aget_aset_self]

/-- C9: within one session repeated `encryptDeterministic("clickX")` calls
return the identical `(ciphertext, iv)` pair, but across sessions the claim
fails: `loadIvMap` is never invoked, so a new session starts from the field
initialiser `new Map()` even though the previous session persisted its map,
and a fresh random IV (here `"IV2"`) is generated instead of reusing the
stored `"IV1"`. -/
theorem encryptDeterministic_not_stable_across_sessions :
    ((encryptDeterministic (fun iv data => iv ++ ":" ++ data) "IV2"
        (encryptDeterministic (fun iv data => iv ++ ":" ++ data) "IV1"
          sessionStartIvMap "clickX").2.2 "clickX") =
      (encryptDeterministic (fun iv data => iv ++ ":" ++ data) "IV1"
        sessionStartIvMap "clickX")) ∧
    (encryptDeterministic (fun iv data => iv ++ ":" ++ data) "IV1"
        sessionStartIvMap "clickX").2.1 = "IV1" ∧
    (encryptDeterministic (fun iv data => iv ++ ":" ++ data) "IV2"
        sessionStartIvMap "clickX").2.1 = "IV2" ∧
    ¬("IV2" = "IV1") := by
  refine ⟨by decide, by decide, by decide, by decide⟩

/-- The JS reduction `reduce((a, b) => a[1] > b[1] ? a : b)` keeps the
accumulator only on a strictly greater key, so it lands on the LAST element
attaining the maximal key: everything before it is `≤`, everything after it is
strictly smaller. -/
theorem foldl_keepGreater_last {α : Type} (f : α → Nat) :
    ∀ (l : List α) (x : α), ∃ l₁ l₂,
      x :: l = l₁ ++ (l.foldl (fun a b => if f a > f b then a else b) x) :: l₂ ∧
      (∀ q ∈ l₁, f q ≤ f (l.foldl (fun a b => if f a > f b then a else b) x)) ∧
      (∀ q ∈ l₂, f q < f (l.foldl (fun a b => if f a > f b then a else b) x)) := by
  intro l
  induction l with
  | nil =>
    intro x
    exact ⟨[], [], rfl, by simp, by simp⟩
  | cons y ys ih =>
    intro x
    by_cases h : f x > f y
    · have hfold : (y :: ys).foldl (fun a b => if f a > f b then a else b) x =
          ys.foldl (fun a b => if f a > f b then a else b) x := by
        rw [List.foldl_cons, if_pos h]
      rw [hfold]
      obtain ⟨l₁, l₂, heq, hle, hlt⟩ := ih x
      cases l₁ with
      | nil =>
        rw [List.nil_append] at heq
        obtain ⟨hx, hys⟩ := List.cons_eq_cons.mp heq
        refine ⟨[], y :: ys, ?_, by simp, ?_⟩
        · rw [List.nil_append, ← hx]
        · intro q hq
          rcases List.mem_cons.mp hq with rfl | hq
          · rw [← hx]; exact h
          · exact hlt q (hys ▸ hq)
      | cons z t =>
        rw [List.cons_append] at heq
        obtain ⟨hx, hys⟩ := List.cons_eq_cons.mp heq
        have hxle : f x ≤ f (ys.foldl (fun a b => if f a > f b then a else b) x) := by
          have := hle z (List.mem_cons_self z t)
          rw [← hx] at this
          exact this
        refine ⟨x :: y :: t, l₂, ?_, ?_, hlt⟩
        · rw [List.cons_append, List.cons_append, ← hys]
        · intro q hq
          rcases List.mem_cons.mp hq with rfl | hq
          · exact hxle
          rcases List.mem_cons.mp hq with rfl | hq
          · exact le_trans (le_of_lt h) hxle
          · exact hle q (List.mem_cons_of_mem z hq)
    · have hfold : (y :: ys).foldl (fun a b => if f a > f b then a else b) x =
          ys.foldl (fun a b => if f a > f b then a else b) y := by
        rw [List.foldl_cons, if_neg h]
      rw [hfold]
      obtain ⟨l₁, l₂, heq, hle, hlt⟩ := ih y
      have hyle : f y ≤ f (ys.foldl (fun a b => if f a > f b then a else b) y) := by
        have hmem : y ∈ l₁ ++ ys.foldl (fun a b => if f a > f b then a else b) y :: l₂ :=
          heq ▸ List.mem_cons_self y ys
        rcases List.mem_append.mp hmem with hy | hy
        · exact hle y hy
        · rcases List.mem_cons.mp hy with hy | hy
          · exact le_of_eq (congrArg f hy)
          · exact le_of_lt (hlt y hy)
      refine ⟨x :: l₁, l₂, ?_, ?_, hlt⟩
      · rw [List.cons_append, ← heq]
      · intro q hq
        rcases List.mem_cons.mp hq with rfl | hq
        · exact le_trans (le_of_not_lt h) hyle
        · exact hle q hq

/-- C10: with two or more actions tied at the maximal count,
`getMostFrequentAction` returns the action that was inserted LAST among the
maximal ones: the returned entry bounds every earlier entry weakly and every
later entry strictly, because the reduction keeps the accumulator only on a
strictly greater count. -/
theorem getMostFrequentAction_returns_last_max (x : String × Nat) (l : List (String × Nat)) :
    ∃ p l₁ l₂, getMostFrequentAction (x :: l) = some p.1 ∧
      x :: l = l₁ ++ p :: l₂ ∧
      (∀ q ∈ l₁, q.2 ≤ p.2) ∧ (∀ q ∈ l₂, q.2 < p.2) := by
  obtain ⟨l₁, l₂, heq, hle, hlt⟩ := foldl_keepGreater_last (fun e : String × Nat => e.2) l x
  exact ⟨_, l₁, l₂, rfl, heq, hle, hlt⟩

/-- A fold whose step touches exactly the key it is given: after folding over
a duplicate-free key list, the entry of a key in the list is its one-step
update, and every other key is untouched. -/
theorem foldl_aset_nodup {β : Type} (g : Nat → β → β) (d : β) :
    ∀ (ls : List Nat) (tm : List (Nat × β)) (K : Nat), ls.Nodup →
      aget (ls.foldl (fun acc k => aset acc k (g k (agetD acc k d))) tm) K =
        if K ∈ ls then some (g K (agetD tm K d)) else aget tm K := by
  intro ls
  induction ls with
  | nil => intro tm K _; simp
  | cons k ks ih =>
    intro tm K hnd
    obtain ⟨hk, hks⟩ := List.nodup_cons.mp hnd
    rw [List.foldl_cons, ih _ K hks]
    by_cases hKks : K ∈ ks
    · have hKk : K ≠ k := fun h => hk (h ▸ hKks)
      rw [if_pos hKks, if_pos (List.mem_cons_of_mem k hKks),
        agetD_aset_ne _ k K _ d (fun h => hKk h.symm)]
    · rw [if_neg hKks]
      by_cases hKk : K = k
      · subst hKk
        rw [aget_aset_self, if_pos (List.mem_cons_self K ks)]
      · rw [aget_aset_ne _ k K _ (fun h => hKk h.symm),
          if_neg (fun h => (List.mem_cons.mp h).elim hKk hKks)]

/-- C3: on a saved interaction, for every `L` from `1` to
`min(maxPatternLength, |history|)` the transition count
`TransitionMatrix[L][pattern][action]` — with `pattern` the comma-join of the
last `L` action types of the history as it was BEFORE the append — is
incremented by one; levels outside that range are untouched; and the new
history is the (truncated) old history with the new item appended at the tail,
so the increments never see the new item. -/
theorem updateTransitionMatrix_increments (p : Params) (st : ModelState)
    (interaction : InteractionRecord) (ts L : Nat)
    (h1 : 1 ≤ L) (h2 : L ≤ min p.maxPatternLength st.userHistory.length) :
    agetD (agetD (agetD (updateTransitionMatrix p st interaction ts).transitionMatrix L [])
        (patternOf st.userHistory L) []) interaction.actionType 0 =
      agetD (agetD (agetD st.transitionMatrix L []) (patternOf st.userHistory L) [])
        interaction.actionType 0 + 1 ∧
    (∀ L', min p.maxPatternLength st.userHistory.length < L' →
      aget (updateTransitionMatrix p st interaction ts).transitionMatrix L' =
        aget st.transitionMatrix L') ∧
    (updateTransitionMatrix p st interaction ts).userHistory =
      jsSliceLast st.userHistory p.historyLength ++
        [{ componentId := interaction.componentId, actionType := interaction.actionType,
           timestamp := ts }] := by
  have hkey : ∀ K : Nat,
      aget (updateTransitionMatrix p st interaction ts).transitionMatrix K =
        if K ∈ List.range' 1 (min p.maxPatternLength st.userHistory.length) then
          some ((fun k lvl =>
            aset lvl (patternOf st.userHistory k)
              (aset (agetD lvl (patternOf st.userHistory k) []) interaction.actionType
                (agetD (agetD lvl (patternOf st.userHistory k) []) interaction.actionType 0 + 1))) K
            (agetD st.transitionMatrix K []))
        else aget st.transitionMatrix K := by
    intro K
    exact foldl_aset_nodup
      (fun k lvl =>
        aset lvl (patternOf st.userHistory k)
          (aset (agetD lvl (patternOf st.userHistory k) []) interaction.actionType
            (agetD (agetD lvl (patternOf st.userHistory k) []) interaction.actionType 0 + 1)))
      [] (List.range' 1 (min p.maxPatternLength st.userHistory.length))
      st.transitionMatrix K (List.nodup_range' 1 _)
  refine ⟨?_, ?_, rfl⟩
  · have hmem : L ∈ List.range' 1 (min p.maxPatternLength st.userHistory.length) := by
      rw [List.mem_range'_1]
      exact ⟨h1, by omega⟩
    have hthis := hkey L
    rw [if_pos hmem] at hthis
    have hlv : agetD (updateTransitionMatrix p st interaction ts).transitionMatrix L [] =
        aset (agetD st.transitionMatrix L []) (patternOf st.userHistory L)
          (aset (agetD (agetD st.transitionMatrix L []) (patternOf st.userHistory L) [])
            interaction.actionType
            (agetD (agetD (agetD st.transitionMatrix L []) (patternOf st.userHistory L) [])
              interaction.actionType 0 + 1)) := by
      rw [agetD, hthis]
      rfl
    rw [hlv, agetD_aset_self, agetD_aset_self]
  · intro L' hL'
    have hmem : L' ∉ List.range' 1 (min p.maxPatternLength st.userHistory.length) := by
      rw [List.mem_range'_1]
      omega
    have hthis := hkey L'
    rwa [if_neg hmem] at hthis

/-- Witness for C3 at a concrete input: a two-item history `A, B`, window
length `L = 2`, saving action `C`. -/
theorem updateTransitionMatrix_increments_witness :
    (1 ≤ 2 ∧ 2 ≤ min (defaultParams (fun _ => 1)).maxPatternLength
        ([⟨"ca", "A", 1⟩, ⟨"cb", "B", 2⟩] : List InteractionData).length) ∧
    (agetD (agetD (agetD (updateTransitionMatrix (defaultParams (fun _ => 1))
          { userHistory := [⟨"ca", "A", 1⟩, ⟨"cb", "B", 2⟩], transitionMatrix := [],
            globalActionCounter := [], timePatterns := [] } ⟨"cc", "C", 7⟩ 7).transitionMatrix 2 [])
        (patternOf [⟨"ca", "A", 1⟩, ⟨"cb", "B", 2⟩] 2) []) "C" 0 =
      agetD (agetD (agetD ([] : List (Nat × List (String × List (String × Nat)))) 2 [])
        (patternOf [⟨"ca", "A", 1⟩, ⟨"cb", "B", 2⟩] 2) []) "C" 0 + 1) := by
  constructor
  · exact ⟨by decide, by decide⟩
  · exact (updateTransitionMatrix_increments (defaultParams (fun _ => 1))
      { userHistory := [⟨"ca", "A", 1⟩, ⟨"cb", "B", 2⟩], transitionMatrix := [],
        globalActionCounter := [], timePatterns := [] } ⟨"cc", "C", 7⟩ 7 2
      (by decide) (by decide)).1

/-- C6 counterexample: the claim says the smoothing factor's default value is
`0.1`, but the constructor of `src/predictionModel.ts` — the module the build
entry `src/index.ts` imports — defaults `smoothingFactor = 1` (the extended
remote-sync variant is the one defaulting to `0.1`). -/
theorem srcDefault_smoothingFactor_is_one :
    (srcDefaultParams (fun _ => 1)).smoothingFactor = 1 ∧
    ¬((srcDefaultParams (fun _ => 1)).smoothingFactor = 1 / 10) := by
  refine ⟨rfl, ?_⟩
  rw [srcDefaultParams]
  norm_num

/-- C6 amended: for every action of a matched transition row the sequence
distribution accumulates `(count + α) / (total + α * |row|)` (times the decay
factor), where `α` is the smoothing factor; its default is `0.1` in the
extended module and `1` in `src/predictionModel.ts`.  Stated for a one-element
history, where exactly the length-1 row is matched and the accumulated entries
are exactly the smoothed row. -/
theorem seqContribs_smoothed_formula (p : Params) (st : ModelState) (now : Nat)
    (x : InteractionData) (row : List (String × Nat))
    (hp : 1 ≤ p.maxPatternLength)
    (hh : st.userHistory = [x])
    (hrow : jsGet2 st.transitionMatrix 1 (patternOf st.userHistory 1) = some row) :
    seqContribs p st now = row.map (fun e =>
      (e.1, ((e.2 : ℚ) + p.smoothingFactor) /
          ((rowTotal row : ℚ) + p.smoothingFactor * (row.length : ℚ)) *
        p.expDecay ((now : ℤ) - (x.timestamp : ℤ)))) ∧
    (defaultParams p.expDecay).smoothingFactor = 1 / 10 ∧
    (srcDefaultParams p.expDecay).smoothingFactor = 1 := by
  refine ⟨?_, rfl, rfl⟩
  rw [hh] at hrow
  have hmin : min p.maxPatternLength ([x] : List InteractionData).length = 1 := by
    simpa using Nat.min_eq_right hp
  rw [seqContribs, hh, hmin]
  have hrange : List.range' 1 1 = [1] := rfl
  rw [hrange, List.flatMap_cons, List.flatMap_nil, List.append_nil, hrow]
  rfl

/-- A concrete model state with a one-element history and a single length-1
transition row, used to instantiate the smoothing-formula theorem. -/
def smoothingExampleState : ModelState :=
  { userHistory := [⟨"ca", "A", 3⟩]
    transitionMatrix := [(1, [("A", [("B", 2), ("C", 1)])])]
    globalActionCounter := []
    timePatterns := [] }

/-- Witness for C6 at a concrete input: a one-element history whose length-1
pattern row is `{B: 2, C: 1}`. -/
theorem seqContribs_smoothed_formula_witness :
    (1 ≤ (defaultParams (fun _ => 2)).maxPatternLength ∧
      smoothingExampleState.userHistory = [⟨"ca", "A", 3⟩] ∧
      jsGet2 smoothingExampleState.transitionMatrix 1
        (patternOf smoothingExampleState.userHistory 1) = some [("B", 2), ("C", 1)]) ∧
    seqContribs (defaultParams (fun _ => 2)) smoothingExampleState 10 =
      [("B", 2), ("C", 1)].map (fun e =>
        (e.1, ((e.2 : ℚ) + (defaultParams (fun _ => 2)).smoothingFactor) /
            ((rowTotal [("B", 2), ("C", 1)] : ℚ) +
              (defaultParams (fun _ => 2)).smoothingFactor *
                (([("B", 2), ("C", 1)] : List (String × Nat)).length : ℚ)) *
          (defaultParams (fun _ => 2)).expDecay ((10 : ℤ) - (((3 : Nat) : ℤ))))) := by
  refine ⟨⟨by decide, rfl, by decide⟩, ?_⟩
  exact (seqContribs_smoothed_formula (defaultParams (fun _ => 2)) smoothingExampleState 10
    ⟨"ca", "A", 3⟩ [("B", 2), ("C", 1)] (by decide) rfl (by decide)).1

theorem insertDesc_ne_nil {α : Type} (f : α → ℚ) (x : α) (l : List α) :
    insertDesc f x l ≠ [] := by
  cases l with
  | nil => simp [insertDesc]
  | cons y ys =>
    rw [insertDesc]
    by_cases h : f y ≤ f x <;> simp [h]

theorem stableSortDesc_ne_nil {α : Type} (f : α → ℚ) (x : α) (l : List α) :
    stableSortDesc f (x :: l) ≠ [] := by
  rw [stableSortDesc]
  exact insertDesc_ne_nil f x _

/-- A stable sort keyed by a constant is the identity: every element is
inserted at the front of the already-sorted prefix of later elements. -/
theorem stableSortDesc_const {α : Type} (c : ℚ) :
    ∀ l : List α, stableSortDesc (fun _ => c) l = l := by
  intro l
  induction l with
  | nil => rfl
  | cons x xs ih =>
    rw [stableSortDesc, ih]
    cases xs with
    | nil => rfl
    | cons y ys => rw [insertDesc, if_pos le_rfl]

/-- The head of the stable descending sort is the FIRST element of the
original list attaining the maximal key: it bounds every element weakly and
every element strictly before its own position strictly. -/
theorem stableSortDesc_head_first_max {α : Type} [Inhabited α] (f : α → ℚ) :
    ∀ l : List α, l ≠ [] → ∃ l₁ l₂,
      l = l₁ ++ (stableSortDesc f l).headI :: l₂ ∧
      (∀ q ∈ l₁, f q < f (stableSortDesc f l).headI) ∧
      (∀ q ∈ l, f q ≤ f (stableSortDesc f l).headI) := by
  intro l
  induction l with
  | nil => intro h; exact absurd rfl h
  | cons x xs ih =>
    intro _
    cases hxs : xs with
    | nil =>
      refine ⟨[], [], ?_, by simp, ?_⟩
      · rfl
      · intro q hq
        rcases List.mem_cons.mp hq with rfl | hq
        · exact le_rfl
        · simp at hq
    | cons y ys =>
      rw [← hxs]
      have hxsne : xs ≠ [] := by rw [hxs]; simp
      obtain ⟨l₁, l₂, heq, hlt, hle⟩ := ih hxsne
      obtain ⟨h', rest, hs⟩ : ∃ h' rest, stableSortDesc f xs = h' :: rest := by
        cases hsx : stableSortDesc f xs with
        | nil =>
          rw [hxs] at hsx
          exact absurd hsx (stableSortDesc_ne_nil f y ys)
        | cons a b => exact ⟨a, b, rfl⟩
      have hsort : stableSortDesc f (x :: xs) = insertDesc f x (h' :: rest) := by
        rw [stableSortDesc, hs]
      rw [hs] at heq hlt hle
      simp only [List.headI] at heq hlt hle
      by_cases hc : f h' ≤ f x
      · have hhead : (stableSortDesc f (x :: xs)).headI = x := by
          rw [hsort, insertDesc, if_pos hc]
          rfl
        rw [hhead]
        refine ⟨[], xs, rfl, by simp, ?_⟩
        intro q hq
        rcases List.mem_cons.mp hq with rfl | hq
        · exact le_rfl
        · exact le_trans (hle q hq) hc
      · have hhead : (stableSortDesc f (x :: xs)).headI = h' := by
          rw [hsort, insertDesc, if_neg hc]
          rfl
        rw [hhead]
        refine ⟨x :: l₁, l₂, ?_, ?_, ?_⟩
        · rw [List.cons_append, ← heq]
        · intro q hq
          rcases List.mem_cons.mp hq with rfl | hq
          · exact lt_of_not_le hc
          · exact hlt q hq
        · intro q hq
          rcases List.mem_cons.mp hq with rfl | hq
          · exact le_of_lt (lt_of_not_le hc)
          · exact hle q hq

/-- In the scoring branch of `predictNextAction`, the returned action is
always the head of the stable descending sort of the combined scores: the
top-candidate filter keeps the head (its distance to the maximum is `0`), and
the tiebreak sort's key is a number minus itself, i.e. constant, so the stable
sort leaves the candidate order unchanged. -/
theorem predictNextAction_best_is_head (p : Params) (tracker : List (String × String))
    (st : ModelState) (timestamp now : Nat)
    (hguard : ¬(st.userHistory = [] ∧ st.globalActionCounter = []))
    (hne : combinedScores p st timestamp now ≠ []) :
    predictNextAction p tracker st timestamp now =
      (some (stableSortDesc (fun e => e.2) (combinedScores p st timestamp now)).headI.1,
        aget tracker
          (stableSortDesc (fun e => e.2) (combinedScores p st timestamp now)).headI.1) := by
  obtain ⟨h, rest, hs⟩ : ∃ h rest,
      stableSortDesc (fun e : String × ℚ => e.2) (combinedScores p st timestamp now) =
        h :: rest := by
    cases hcs : combinedScores p st timestamp now with
    | nil => exact absurd hcs hne
    | cons a b =>
      cases hsx : stableSortDesc (fun e : String × ℚ => e.2) (a :: b) with
      | nil => exact absurd hsx (stableSortDesc_ne_nil _ a b)
      | cons u v => exact ⟨u, v, rfl⟩
  rw [predictNextAction, if_neg hguard]
  simp only [hne, if_true, ne_eq, not_false_eq_true, ↓reduceIte]
  rw [hs]
  simp only [List.headI]
  have hfilter : (h :: rest).filter (fun e => decide (|e.2 - h.2| < 1 / 1000000)) =
      h :: rest.filter (fun e => decide (|e.2 - h.2| < 1 / 1000000)) := by
    rw [List.filter_cons]
    simp
  rw [hfilter]
  by_cases hlen : (h :: rest.filter (fun e => decide (|e.2 - h.2| < 1 / 1000000))).length = 1
  · simp only [hlen, if_true, List.headI, ↓reduceIte]
  · simp only [hlen, ↓reduceIte, stableSortDesc_const, List.headI]

/-- A model state whose combined scores put two candidates within `1e-6` of
each other without being exactly equal: no sequence evidence, and hour-14
counts `A: 1999999`, `B: 2000001` (`A` inserted first). -/
def tieExampleState : ModelState :=
  { userHistory := [⟨"c", "Z", 0⟩]
    transitionMatrix := []
    globalActionCounter := [("A", 1), ("B", 1)]
    timePatterns := [("A", [(14, 1999999)]), ("B", [(14, 2000001)])] }

/-- C5 counterexample: the claim says that whenever several candidates are
within `1e-6` of the maximal score, predict returns the one appearing first in
the score map's insertion order.  Here `A` is inserted first and both
candidates are within `1.5e-7` of the maximum, yet predict returns `B` — the
code always returns `sorted[0]`, the candidate with the strictly larger score,
and the `1e-6` band never overrides it. -/
theorem predict_tie_not_first_insertion :
    combinedScores (defaultParams (fun _ => 1)) tieExampleState 50400005 0 =
      [("A", (5999997 : ℚ) / 40000000), ("B", (6000003 : ℚ) / 40000000)] ∧
    |(5999997 : ℚ) / 40000000 - (6000003 : ℚ) / 40000000| < 1 / 1000000 ∧
    predictNextAction (defaultParams (fun _ => 1)) [("A", "ca"), ("B", "cb")]
      tieExampleState 50400005 0 = (some "B", some "cb") ∧
    ¬(("B" : String) = "A") := by
  have hcs : combinedScores (defaultParams (fun _ => 1)) tieExampleState 50400005 0 =
      [("A", (5999997 : ℚ) / 40000000), ("B", (6000003 : ℚ) / 40000000)] := by
    simp [combinedScores, getTimeProbabilities, getSequenceProbabilities, seqContribs,
      accumContribs, accumAux, sumVals, hourTotals, hourOf, aget, agetD, aset, jsSetDedup,
      tieExampleState, defaultParams, jsGet2, patternOf, jsSliceLast, windowTimestamp,
      smoothedProb, rowTotal]
    norm_num
  refine ⟨hcs, by rw [abs_lt]; constructor <;> norm_num, ?_, by decide⟩
  have hbest := predictNextAction_best_is_head (defaultParams (fun _ => 1))
    [("A", "ca"), ("B", "cb")] tieExampleState 50400005 0 (by decide)
    (by rw [hcs]; simp)
  rw [hcs] at hbest
  have hsort : stableSortDesc (fun e : String × ℚ => e.2)
      [("A", (5999997 : ℚ) / 40000000), ("B", (6000003 : ℚ) / 40000000)] =
      [("B", (6000003 : ℚ) / 40000000), ("A", (5999997 : ℚ) / 40000000)] := by
    simp only [stableSortDesc, insertDesc]
    rw [if_neg (by norm_num)]
  rw [hsort] at hbest
  rw [hbest]
  rfl

/-- C5 amended: with the combined score map non-empty, predict
deterministically returns the candidate attaining the maximal combined score;
among candidates whose scores are EXACTLY equal to the maximum the earliest
insertion wins (the stable sort preserves their order and the entropy
tiebreak computes a number minus itself, hence never reorders), but a
candidate merely within `1e-6` of a strictly larger maximum is not chosen. -/
theorem predictNextAction_returns_first_max (p : Params) (tracker : List (String × String))
    (st : ModelState) (timestamp now : Nat)
    (hguard : ¬(st.userHistory = [] ∧ st.globalActionCounter = []))
    (hne : combinedScores p st timestamp now ≠ []) :
    ∃ a v l₁ l₂,
      combinedScores p st timestamp now = l₁ ++ (a, v) :: l₂ ∧
      (∀ q ∈ l₁, q.2 < v) ∧
      (∀ q ∈ combinedScores p st timestamp now, q.2 ≤ v) ∧
      predictNextAction p tracker st timestamp now = (some a, aget tracker a) := by
  obtain ⟨l₁, l₂, heq, hlt, hle⟩ :=
    stableSortDesc_head_first_max (fun e : String × ℚ => e.2)
      (combinedScores p st timestamp now) hne
  refine ⟨(stableSortDesc (fun e : String × ℚ => e.2)
      (combinedScores p st timestamp now)).headI.1,
    (stableSortDesc (fun e : String × ℚ => e.2)
      (combinedScores p st timestamp now)).headI.2, l₁, l₂, ?_, hlt, hle, ?_⟩
  · rw [Prod.mk.eta]
    exact heq
  · exact predictNextAction_best_is_head p tracker st timestamp now hguard hne

/-- A model state with an exact tie broken by insertion order: hour-14 counts
`A: 2`, `B: 1`, no sequence evidence. -/
def firstMaxExampleState : ModelState :=
  { userHistory := [⟨"c", "Z", 0⟩]
    transitionMatrix := []
    globalActionCounter := [("A", 1)]
    timePatterns := [("A", [(14, 2)]), ("B", [(14, 1)])] }

/-- Witness for the amended C5 at a concrete input. -/
theorem predictNextAction_returns_first_max_witness :
    (¬(firstMaxExampleState.userHistory = [] ∧
        firstMaxExampleState.globalActionCounter = []) ∧
      combinedScores (defaultParams (fun _ => 1)) firstMaxExampleState 50400005 0 ≠
        ([] : List (String × ℚ))) ∧
    (∃ a v l₁ l₂,
      combinedScores (defaultParams (fun _ => 1)) firstMaxExampleState 50400005 0 =
        l₁ ++ (a, v) :: l₂ ∧
      (∀ q ∈ l₁, q.2 < v) ∧
      (∀ q ∈ combinedScores (defaultParams (fun _ => 1)) firstMaxExampleState 50400005 0,
        q.2 ≤ v) ∧
      predictNextAction (defaultParams (fun _ => 1)) [("A", "ca"), ("B", "cb")]
        firstMaxExampleState 50400005 0 = (some a, aget [("A", "ca"), ("B", "cb")] a)) := by
  have hne : combinedScores (defaultParams (fun _ => 1)) firstMaxExampleState 50400005 0 ≠
      ([] : List (String × ℚ)) := by
    simp [combinedScores, getTimeProbabilities, getSequenceProbabilities, seqContribs,
      accumContribs, accumAux, sumVals, hourTotals, hourOf, aget, agetD, aset, jsSetDedup,
      firstMaxExampleState, defaultParams]
  refine ⟨⟨by decide, hne⟩, ?_⟩
  exact predictNextAction_returns_first_max (defaultParams (fun _ => 1))
    [("A", "ca"), ("B", "cb")] firstMaxExampleState 50400005 0 (by decide) hne

/-- Total count recorded for hour `h` in one action's time data (summing
duplicate hour keys, as the `totalPerHour` accumulation does). -/
def hourSum (td : List (Nat × Nat)) (h : Nat) : Nat :=
  ((td.filter (fun he => he.1 = h)).map (·.2)).sum

theorem hourSum_cons (he : Nat × Nat) (rest : List (Nat × Nat)) (h : Nat) :
    hourSum (he :: rest) h = (if he.1 = h then he.2 else 0) + hourSum rest h := by
  rw [hourSum, List.filter_cons]
  by_cases hh : he.1 = h
  · simp [hh, hourSum]
  · simp [hh, hourSum]

theorem agetD_le_hourSum (td : List (Nat × Nat)) (h : Nat) :
    agetD td h 0 ≤ hourSum td h := by
  induction td with
  | nil => simp [agetD, aget, hourSum]
  | cons he rest ih =>
    rw [hourSum_cons]
    by_cases hh : he.1 = h
    · simp [agetD, aget, hh]
    · rw [if_neg hh, Nat.zero_add]
      simpa [agetD, aget, hh] using ih

theorem hourTotals_inner (h : Nat) :
    ∀ (td : List (Nat × Nat)) (acc : List (Nat × Nat)),
      agetD (td.foldl (fun a he => aset a he.1 (agetD a he.1 0 + he.2)) acc) h 0 =
        agetD acc h 0 + hourSum td h := by
  intro td
  induction td with
  | nil => intro acc; simp [hourSum]
  | cons he rest ih =>
    intro acc
    rw [List.foldl_cons, ih, hourSum_cons]
    by_cases hh : he.1 = h
    · rw [hh, agetD_aset_self, if_pos rfl]
      omega
    · rw [agetD_aset_ne acc he.1 h (agetD acc he.1 0 + he.2) 0 hh, if_neg hh]
      omega

theorem hourTotals_value (h : Nat) (tps : List (String × List (Nat × Nat))) :
    agetD (hourTotals tps) h 0 = (tps.map (fun e => hourSum e.2 h)).sum := by
  suffices haux : ∀ (l : List (String × List (Nat × Nat))) (acc : List (Nat × Nat)),
      agetD (l.foldl
          (fun acc e => e.2.foldl (fun a2 he => aset a2 he.1 (agetD a2 he.1 0 + he.2)) acc)
          acc) h 0 =
        agetD acc h 0 + (l.map (fun e => hourSum e.2 h)).sum by
    have hbase := haux tps []
    rw [show agetD ([] : List (Nat × Nat)) h 0 = 0 from rfl, Nat.zero_add] at hbase
    rw [hourTotals]
    exact hbase
  intro l
  induction l with
  | nil => intro acc; simp
  | cons e rest ih =>
    intro acc
    rw [List.foldl_cons, ih, hourTotals_inner, List.map_cons, List.sum_cons]
    omega

theorem aget_mem {σ β : Type} [DecidableEq σ] :
    ∀ (m : List (σ × β)) (k : σ) (v : β), aget m k = some v → (k, v) ∈ m := by
  intro m
  induction m with
  | nil => intro k v h; simp [aget] at h
  | cons e rest ih =>
    intro k v h
    rw [aget] at h
    by_cases he : e.1 = k
    · rw [if_pos he] at h
      have hv : e.2 = v := Option.some.inj h
      have hkv : (k, v) = e := by
        rw [← he, ← hv]
      rw [hkv]
      exact List.mem_cons_self e rest
    · rw [if_neg he] at h
      exact List.mem_cons_of_mem e (ih k v h)

theorem mem_keys_aget {σ β : Type} [DecidableEq σ] :
    ∀ (m : List (σ × β)) (k : σ), k ∈ m.map Prod.fst → ∃ v, aget m k = some v := by
  intro m
  induction m with
  | nil => intro k h; simp at h
  | cons e rest ih =>
    intro k h
    by_cases he : e.1 = k
    · exact ⟨e.2, by rw [aget, if_pos he]⟩
    · rcases List.mem_cons.mp h with h | h
      · exact absurd h.symm he
      · obtain ⟨v, hv⟩ := ih k h
        exact ⟨v, by rw [aget, if_neg he, hv]⟩

/-- Looking a key up in a key-preserving map of an association list yields the
mapped value of the underlying first entry. -/
theorem aget_map_pair {σ β γ : Type} [DecidableEq σ] (g : σ → β → γ) :
    ∀ (m : List (σ × β)) (k : σ),
      aget (m.map (fun e => (e.1, g e.1 e.2))) k = Option.map (g k) (aget m k) := by
  intro m
  induction m with
  | nil => intro k; rfl
  | cons e rest ih =>
    intro k
    rw [List.map_cons, aget, aget]
    by_cases he : e.1 = k
    · rw [if_pos he, if_pos he, he, Option.map_some']
    · rw [if_neg he, if_neg he, ih]

theorem jsSetDedup_of_nodup : ∀ l : List String, l.Nodup → jsSetDedup l = l := by
  intro l
  induction l with
  | nil => intro _; rfl
  | cons k ks ih =>
    intro hnd
    obtain ⟨hk, hks⟩ := List.nodup_cons.mp hnd
    rw [jsSetDedup, ih hks, List.filter_eq_self.mpr]
    intro x hx
    have hxk : x ≠ k := fun hxk => hk (hxk ▸ hx)
    simpa using hxk

/-- C4: with the user history empty but `TimePatterns` populated (as after a
restart with an empty replay followed by a global-model install, which fills
`GlobalActionCounter` and `TimePatterns` from the same payload), predict at a
timestamp whose hour carries counts only for action `Y` returns `Y`: the
time-of-day distribution is consulted even with empty history. -/
theorem predict_consults_time_with_empty_history
    (p : Params) (tracker : List (String × String)) (st : ModelState) (t now : Nat)
    (Y : String) (tdY : List (Nat × Nat))
    (hH : st.userHistory = [])
    (hC : st.globalActionCounter ≠ [])
    (hND : (st.timePatterns.map (fun e => e.1)).Nodup)
    (hY : aget st.timePatterns Y = some tdY)
    (hcY : 0 < agetD tdY (hourOf t) 0)
    (hOther : ∀ e ∈ st.timePatterns, e.1 ≠ Y → hourSum e.2 (hourOf t) = 0)
    (hwT : 0 < p.weightTime) :
    (predictNextAction p tracker st t now).1 = some Y := by
  have hcontribs : seqContribs p st now = [] := by
    simp [seqContribs, hH]
  have hseq : getSequenceProbabilities p st now = [] := by
    simp [getSequenceProbabilities, hcontribs, accumContribs, accumAux, sumVals]
  have hYmem : (Y, tdY) ∈ st.timePatterns := aget_mem _ _ _ hY
  have hT_ge : hourSum tdY (hourOf t) ≤ agetD (hourTotals st.timePatterns) (hourOf t) 0 := by
    rw [hourTotals_value]
    exact List.single_le_sum (fun x _ => Nat.zero_le x) _
      (List.mem_map_of_mem _ hYmem)
  have hT_pos : 0 < agetD (hourTotals st.timePatterns) (hourOf t) 0 :=
    lt_of_lt_of_le (lt_of_lt_of_le hcY (agetD_le_hourSum tdY (hourOf t))) hT_ge
  have htp : getTimeProbabilities st t = st.timePatterns.map
      (fun e => (e.1, ((agetD e.2 (hourOf t) 0 : ℕ) : ℚ) /
        ((agetD (hourTotals st.timePatterns) (hourOf t) 0 : ℕ) : ℚ))) := by
    simp only [getTimeProbabilities]
    rw [if_pos hT_pos]
  have hkeys : (getTimeProbabilities st t).map (fun e => e.1) =
      st.timePatterns.map (fun e => e.1) := by
    rw [htp, List.map_map]
    rfl
  have hcomb : combinedScores p st t now = st.timePatterns.map
      (fun e => (e.1, p.weightSequence * agetD ([] : List (String × ℚ)) e.1 0 +
        p.weightTime * agetD (getTimeProbabilities st t) e.1 0)) := by
    simp only [combinedScores, hseq, List.map_nil, List.nil_append]
    rw [hkeys, jsSetDedup_of_nodup _ hND, List.map_map]
    rfl
  have hgetY : agetD (getTimeProbabilities st t) Y 0 =
      ((agetD tdY (hourOf t) 0 : ℕ) : ℚ) /
        ((agetD (hourTotals st.timePatterns) (hourOf t) 0 : ℕ) : ℚ) := by
    rw [htp, agetD, aget_map_pair
      (fun _ v => ((agetD v (hourOf t) 0 : ℕ) : ℚ) /
        ((agetD (hourTotals st.timePatterns) (hourOf t) 0 : ℕ) : ℚ)), hY]
    rfl
  have hother0 : ∀ a ∈ st.timePatterns.map (fun e => e.1), a ≠ Y →
      agetD (getTimeProbabilities st t) a 0 = 0 := by
    intro a ha hne
    obtain ⟨td, htd⟩ := mem_keys_aget st.timePatterns a ha
    have hmem := aget_mem _ _ _ htd
    have h0 : hourSum td (hourOf t) = 0 := hOther (a, td) hmem hne
    have hlook : agetD td (hourOf t) 0 = 0 :=
      Nat.le_zero.mp (h0 ▸ agetD_le_hourSum td (hourOf t))
    rw [htp, agetD, aget_map_pair
      (fun _ v => ((agetD v (hourOf t) 0 : ℕ) : ℚ) /
        ((agetD (hourTotals st.timePatterns) (hourOf t) 0 : ℕ) : ℚ)), htd]
    simp [hlook]
  have hvY : 0 < p.weightSequence * agetD ([] : List (String × ℚ)) Y 0 +
      p.weightTime * agetD (getTimeProbabilities st t) Y 0 := by
    rw [hgetY, show agetD ([] : List (String × ℚ)) Y 0 = 0 from rfl, mul_zero, zero_add]
    apply mul_pos hwT
    apply div_pos
    · exact_mod_cast hcY
    · exact_mod_cast hT_pos
  have htpsne : st.timePatterns ≠ [] := by
    intro hnil
    rw [hnil] at hYmem
    simp at hYmem
  have hcne : combinedScores p st t now ≠ [] := by
    rw [hcomb]
    simpa using htpsne
  have hguard : ¬(st.userHistory = [] ∧ st.globalActionCounter = []) := fun hx => hC hx.2
  have hbest := predictNextAction_best_is_head p tracker st t now hguard hcne
  obtain ⟨l₁, l₂, heq, hlt, hle⟩ :=
    stableSortDesc_head_first_max (fun e : String × ℚ => e.2)
      (combinedScores p st t now) hcne
  set hd := (stableSortDesc (fun e : String × ℚ => e.2)
    (combinedScores p st t now)).headI with hd_def
  have hdmem : hd ∈ combinedScores p st t now := by
    rw [heq]
    exact List.mem_append_right _ (List.mem_cons_self _ _)
  have hYentry : (Y, p.weightSequence * agetD ([] : List (String × ℚ)) Y 0 +
      p.weightTime * agetD (getTimeProbabilities st t) Y 0) ∈
        combinedScores p st t now := by
    rw [hcomb]
    exact List.mem_map_of_mem _ hYmem
  have hbound := hle _ hYentry
  rw [hcomb] at hdmem
  obtain ⟨e, hemem, hde⟩ := List.mem_map.mp hdmem
  by_cases hdY : e.1 = Y
  · rw [hbest]
    show some hd.1 = some Y
    rw [← hde]
    exact congrArg some hdY
  · exfalso
    have h0 : agetD (getTimeProbabilities st t) e.1 0 =
        0 := hother0 e.1 (List.mem_map_of_mem _ hemem) hdY
    have hdval : hd.2 = 0 := by
      rw [← hde]
      show p.weightSequence * agetD ([] : List (String × ℚ)) e.1 0 +
        p.weightTime * agetD (getTimeProbabilities st t) e.1 0 = 0
      rw [h0, show agetD ([] : List (String × ℚ)) e.1 0 = 0 from rfl,
        mul_zero, mul_zero, zero_add]
    rw [hdval] at hbound
    exact absurd (lt_of_lt_of_le hvY hbound) (lt_irrefl 0)

/-- A model state as left by an empty replay followed by a global-model
install: empty history, counter and time patterns from the server (`X` at
hour 3, `Y` at hour 14, five each). -/
def timeFallbackState : ModelState :=
  { userHistory := []
    transitionMatrix := []
    globalActionCounter := [("X", 5), ("Y", 5)]
    timePatterns := [("X", [(3, 5)]), ("Y", [(14, 5)])] }

/-- Witness for C4 at a concrete input: `predict` at an hour-14 timestamp
returns `Y`. -/
theorem predict_consults_time_witness :
    (timeFallbackState.userHistory = [] ∧
      timeFallbackState.globalActionCounter ≠ [] ∧
      (timeFallbackState.timePatterns.map (fun e => e.1)).Nodup ∧
      aget timeFallbackState.timePatterns "Y" = some [(14, 5)] ∧
      0 < agetD [((14 : Nat), (5 : Nat))] (hourOf 50400123) 0 ∧
      (∀ e ∈ timeFallbackState.timePatterns, e.1 ≠ "Y" →
        hourSum e.2 (hourOf 50400123) = 0) ∧
      0 < (defaultParams (fun _ => 1)).weightTime) ∧
    (predictNextAction (defaultParams (fun _ => 1)) [("Y", "compY")]
      timeFallbackState 50400123 0).1 = some "Y" := by
  refine ⟨⟨rfl, by decide, by decide, by decide, by decide, by decide, by norm_num [defaultParams]⟩, ?_⟩
  exact predict_consults_time_with_empty_history (defaultParams (fun _ => 1))
    [("Y", "compY")] timeFallbackState 50400123 0 "Y" [(14, 5)] rfl (by decide)
    (by decide) (by decide) (by decide) (by decide) (by norm_num [defaultParams])

/-- Pointwise scaling of the values of a probability map. -/
def scaleC (c : ℚ) (l : List (String × ℚ)) : List (String × ℚ) :=
  l.map (fun e => (e.1, c * e.2))

/-- The sequence contributions with the wall-clock factor removed: each
contribution uses `expDecay (-timestamp)` instead of
`expDecay (now - timestamp)`.  This is the canonical, `now`-free form against
which both calls are compared. -/
def seqContribsBase (p : Params) (st : ModelState) : List (String × ℚ) :=
  (List.range' 1 (min p.maxPatternLength st.userHistory.length)).flatMap
    (fun length =>
      match jsGet2 st.transitionMatrix length (patternOf st.userHistory length) with
      | none => []
      | some row =>
          row.map (fun e =>
            (e.1, smoothedProb p row e.2 *
              p.expDecay (-(windowTimestamp st.userHistory length : ℤ)))))

theorem seqContribs_eq_scale (p : Params) (st : ModelState) (now : Nat)
    (hhom : ∀ a b : ℤ, p.expDecay (a + b) = p.expDecay a * p.expDecay b) :
    seqContribs p st now = scaleC (p.expDecay (now : ℤ)) (seqContribsBase p st) := by
  rw [seqContribs, seqContribsBase, scaleC]
  generalize List.range' 1 (min p.maxPatternLength st.userHistory.length) = ls
  induction ls with
  | nil => rfl
  | cons length rest ih =>
    rw [List.flatMap_cons, List.flatMap_cons, List.map_append, ih]
    congr 1
    cases hrow : jsGet2 st.transitionMatrix length (patternOf st.userHistory length) with
    | none => rfl
    | some row =>
      simp only [List.map_map]
      apply List.map_congr_left
      intro e _
      show (e.1, smoothedProb p row e.2 *
          p.expDecay ((now : ℤ) - (windowTimestamp st.userHistory length : ℤ))) =
        (e.1, p.expDecay (now : ℤ) *
          (smoothedProb p row e.2 *
            p.expDecay (-(windowTimestamp st.userHistory length : ℤ))))
      rw [sub_eq_add_neg, hhom]
      ring_nf

theorem agetD_scaleC (c : ℚ) (m : List (String × ℚ)) (k : String) :
    agetD (scaleC c m) k 0 = c * agetD m k 0 := by
  induction m with
  | nil => simp [scaleC, agetD, aget]
  | cons e rest ih =>
    by_cases he : e.1 = k
    · simp [scaleC, agetD, aget, he]
    · simpa [scaleC, agetD, aget, he] using ih

theorem aset_scaleC (c : ℚ) (m : List (String × ℚ)) (k : String) (v : ℚ) :
    aset (scaleC c m) k (c * v) = scaleC c (aset m k v) := by
  induction m with
  | nil => simp [scaleC, aset]
  | cons e rest ih =>
    simp only [scaleC] at ih ⊢
    by_cases he : e.1 = k
    · simp [aset, he]
    · simp only [List.map_cons, aset, he, if_false, ih]

theorem accumAux_scaleC (c : ℚ) :
    ∀ (l m : List (String × ℚ)),
      accumAux (scaleC c m) (scaleC c l) = scaleC c (accumAux m l) := by
  intro l
  induction l with
  | nil => intro m; rfl
  | cons e rest ih =>
    intro m
    have hl : scaleC c (e :: rest) = (e.1, c * e.2) :: scaleC c rest := rfl
    rw [accumAux, hl, List.foldl_cons]
    have hstep : aset (scaleC c m) e.1 (agetD (scaleC c m) e.1 0 + c * e.2) =
        scaleC c (aset m e.1 (agetD m e.1 0 + e.2)) := by
      rw [agetD_scaleC, ← mul_add, aset_scaleC]
    rw [hstep]
    exact ih (aset m e.1 (agetD m e.1 0 + e.2))

theorem accumContribs_scaleC (c : ℚ) (l : List (String × ℚ)) :
    accumContribs (scaleC c l) = scaleC c (accumContribs l) := by
  rw [accumContribs, accumContribs, show ([] : List (String × ℚ)) = scaleC c [] from rfl]
  exact accumAux_scaleC c l []

theorem sumVals_scaleC (c : ℚ) (m : List (String × ℚ)) :
    sumVals (scaleC c m) = c * sumVals m := by
  induction m with
  | nil => simp [scaleC, sumVals]
  | cons e rest ih =>
    simp only [scaleC, sumVals, List.map_cons, List.sum_cons] at ih ⊢
    rw [ih]
    ring

theorem agetD_nonneg_of_pos (m : List (String × ℚ)) (k : String)
    (hm : ∀ e ∈ m, 0 < e.2) : 0 ≤ agetD m k 0 := by
  rw [agetD]
  cases hx : aget m k with
  | none => simp
  | some v =>
    have := hm (k, v) (aget_mem m k v hx)
    simpa using le_of_lt this

theorem accumAux_pos :
    ∀ (l m : List (String × ℚ)), (∀ e ∈ m, 0 < e.2) → (∀ e ∈ l, 0 < e.2) →
      ∀ e ∈ accumAux m l, 0 < e.2 := by
  intro l
  induction l with
  | nil => intro m hm _ e he; exact hm e he
  | cons x rest ih =>
    intro m hm hl e he
    rw [accumAux, List.foldl_cons] at he
    have hx : 0 < x.2 := hl x (List.mem_cons_self x rest)
    have hm' : ∀ e ∈ aset m x.1 (agetD m x.1 0 + x.2), 0 < e.2 := by
      intro q hq
      rcases mem_aset m x.1 (agetD m x.1 0 + x.2) q hq with hq | hq
      · rw [hq]
        have := agetD_nonneg_of_pos m x.1 hm
        linarith
      · exact hm q hq
    exact ih _ hm' (fun q hq => hl q (List.mem_cons_of_mem x hq)) e he

theorem accumAux_ne_nil :
    ∀ (l m : List (String × ℚ)), m ≠ [] → accumAux m l ≠ [] := by
  intro l
  induction l with
  | nil => intro m hm; exact hm
  | cons x rest ih =>
    intro m _
    rw [accumAux, List.foldl_cons]
    exact ih _ (aset_ne_nil m x.1 (agetD m x.1 0 + x.2))

theorem accumContribs_ne_nil (l : List (String × ℚ)) (hl : l ≠ []) :
    accumContribs l ≠ [] := by
  cases l with
  | nil => exact absurd rfl hl
  | cons x rest =>
    rw [accumContribs, accumAux, List.foldl_cons]
    exact accumAux_ne_nil rest _ (aset_ne_nil [] x.1 _)

theorem sumVals_pos (m : List (String × ℚ)) (hm : m ≠ []) (hpos : ∀ e ∈ m, 0 < e.2) :
    0 < sumVals m := by
  rw [sumVals]
  apply List.sum_pos
  · intro v hv
    obtain ⟨e, he, hev⟩ := List.mem_map.mp hv
    exact hev ▸ hpos e he
  · simpa using hm

theorem seqContribsBase_pos (p : Params) (st : ModelState)
    (hα : 0 < p.smoothingFactor) (hpos : ∀ a : ℤ, 0 < p.expDecay a) :
    ∀ e ∈ seqContribsBase p st, 0 < e.2 := by
  intro e he
  rw [seqContribsBase] at he
  obtain ⟨length, _, hmem⟩ := List.mem_flatMap.mp he
  cases hrow : jsGet2 st.transitionMatrix length (patternOf st.userHistory length) with
  | none => rw [hrow] at hmem; simp at hmem
  | some row =>
    rw [hrow] at hmem
    obtain ⟨x, hx, hxe⟩ := List.mem_map.mp hmem
    rw [← hxe]
    show 0 < smoothedProb p row x.2 *
      p.expDecay (-(windowTimestamp st.userHistory length : ℤ))
    apply mul_pos _ (hpos _)
    rw [smoothedProb]
    apply div_pos
    · positivity
    · have hlen : 0 < (row.length : ℚ) := by
        have : row ≠ [] := by
          intro hnil
          rw [hnil] at hx
          simp at hx
        have : 0 < row.length := List.length_pos.mpr this
        exact_mod_cast this
      have hrt : (0 : ℚ) ≤ (rowTotal row : ℚ) := by positivity
      nlinarith

/-- The normalised sequence distribution does not depend on the wall clock:
the decay factor `expDecay (now - t) = expDecay now * expDecay (-t)`
contributes the common positive factor `expDecay now` to every accumulated
weight, and normalisation cancels it (when nothing was accumulated, both
calls return the empty map).  Requires the facts the real exponential
satisfies: multiplicativity and strict positivity, plus a positive smoothing
factor (as in both shipped configurations). -/
theorem getSequenceProbabilities_now_independent (p : Params) (st : ModelState)
    (now₁ now₂ : Nat)
    (hα : 0 < p.smoothingFactor)
    (hhom : ∀ a b : ℤ, p.expDecay (a + b) = p.expDecay a * p.expDecay b)
    (hpos : ∀ a : ℤ, 0 < p.expDecay a) :
    getSequenceProbabilities p st now₁ = getSequenceProbabilities p st now₂ := by
  suffices hcanon : ∀ now : Nat, getSequenceProbabilities p st now =
      (if seqContribsBase p st = [] then []
       else (accumContribs (seqContribsBase p st)).map
         (fun e => (e.1, e.2 / sumVals (accumContribs (seqContribsBase p st))))) by
    rw [hcanon now₁, hcanon now₂]
  intro now
  have hc : 0 < p.expDecay (now : ℤ) := hpos _
  have hsc : seqContribs p st now = scaleC (p.expDecay (now : ℤ)) (seqContribsBase p st) :=
    seqContribs_eq_scale p st now hhom
  by_cases hbase : seqContribsBase p st = []
  · rw [if_pos hbase]
    simp [getSequenceProbabilities, hsc, hbase, scaleC, accumContribs, accumAux, sumVals]
  · rw [if_neg hbase]
    have hMpos : ∀ e ∈ accumContribs (seqContribsBase p st), 0 < e.2 :=
      accumAux_pos _ [] (by simp) (seqContribsBase_pos p st hα hpos)
    have hMne : accumContribs (seqContribsBase p st) ≠ [] :=
      accumContribs_ne_nil _ hbase
    have hS : 0 < sumVals (accumContribs (seqContribsBase p st)) :=
      sumVals_pos _ hMne hMpos
    simp only [getSequenceProbabilities]
    rw [hsc, accumContribs_scaleC, sumVals_scaleC, if_pos (mul_pos hc hS)]
    rw [scaleC, List.map_map]
    apply List.map_congr_left
    intro e _
    show (e.1, p.expDecay (now : ℤ) * e.2 /
        (p.expDecay (now : ℤ) * sumVals (accumContribs (seqContribsBase p st)))) =
      (e.1, e.2 / sumVals (accumContribs (seqContribsBase p st)))
    rw [mul_div_mul_left _ _ (ne_of_gt hc)]

/-- C2: `predictNextAction` is a pure function of the model state, the
registry and its timestamp argument: the `Date.now()` value read inside
`getSequenceProbabilities` (modelled by the explicit `now` argument) never
influences the returned `{action, componentId}`, because the resulting decay
factor cancels under normalisation.  The hypotheses record that the smoothing
factor is positive (it is `1` resp. `0.1` in the shipped configurations) and
that the modelled `Math.exp` is multiplicative and strictly positive, as the
real exponential is. -/
theorem predict_independent_of_wall_clock (p : Params) (tracker : List (String × String))
    (st : ModelState) (timestamp now₁ now₂ : Nat)
    (hα : 0 < p.smoothingFactor)
    (hhom : ∀ a b : ℤ, p.expDecay (a + b) = p.expDecay a * p.expDecay b)
    (hpos : ∀ a : ℤ, 0 < p.expDecay a) :
    predictNextAction p tracker st timestamp now₁ =
      predictNextAction p tracker st timestamp now₂ := by
  have hs := getSequenceProbabilities_now_independent p st now₁ now₂ hα hhom hpos
  simp only [predictNextAction, combinedScores, hs]

/-- Witness for C2 at a concrete input: the decay function `z ↦ (1/2) ^ z`
satisfies the exponential laws, and predicting twice with wall clocks `5` and
`99` gives the same result. -/
theorem predict_independent_of_wall_clock_witness :
    (0 < (defaultParams (fun z : ℤ => (1 / 2 : ℚ) ^ z)).smoothingFactor ∧
      (∀ a b : ℤ, (defaultParams (fun z : ℤ => (1 / 2 : ℚ) ^ z)).expDecay (a + b) =
        (defaultParams (fun z : ℤ => (1 / 2 : ℚ) ^ z)).expDecay a *
          (defaultParams (fun z : ℤ => (1 / 2 : ℚ) ^ z)).expDecay b) ∧
      (∀ a : ℤ, 0 < (defaultParams (fun z : ℤ => (1 / 2 : ℚ) ^ z)).expDecay a)) ∧
    predictNextAction (defaultParams (fun z : ℤ => (1 / 2 : ℚ) ^ z)) [("B", "cb")]
        smoothingExampleState 50400005 5 =
      predictNextAction (defaultParams (fun z : ℤ => (1 / 2 : ℚ) ^ z)) [("B", "cb")]
        smoothingExampleState 50400005 99 := by
  have h1 : 0 < (defaultParams (fun z : ℤ => (1 / 2 : ℚ) ^ z)).smoothingFactor := by
    norm_num [defaultParams]
  have h2 : ∀ a b : ℤ, (defaultParams (fun z : ℤ => (1 / 2 : ℚ) ^ z)).expDecay (a + b) =
      (defaultParams (fun z : ℤ => (1 / 2 : ℚ) ^ z)).expDecay a *
        (defaultParams (fun z : ℤ => (1 / 2 : ℚ) ^ z)).expDecay b := by
    intro a b
    show (1 / 2 : ℚ) ^ (a + b) = (1 / 2 : ℚ) ^ a * (1 / 2 : ℚ) ^ b
    exact zpow_add₀ (by norm_num) a b
  have h3 : ∀ a : ℤ, 0 < (defaultParams (fun z : ℤ => (1 / 2 : ℚ) ^ z)).expDecay a := by
    intro a
    show (0 : ℚ) < (1 / 2 : ℚ) ^ a
    exact zpow_pos (by norm_num) a
  exact ⟨⟨h1, h2, h3⟩,
    predict_independent_of_wall_clock (defaultParams (fun z : ℤ => (1 / 2 : ℚ) ^ z))
      [("B", "cb")] smoothingExampleState 50400005 5 99 h1 h2 h3⟩

end PredictiveLibrary
